import Mathlib

/-!
Verification of the balance_engine repository's optimization-model layer.

The development shallowly embeds the model-formulation code of
`src/examples/engine.py`, `src/plugins/mcp/server.py`,
`src/examples/product-mix.py` and `src/examples/multi-period.py`:
PuLP affine expressions become explicit `(constant, term-list)` pairs,
constraint registration becomes construction of an explicit constraint
list, Python dictionaries become association lists with `Option`-valued
lookup (a failed lookup, i.e. a Python `KeyError`, surfaces as `none`),
and the external solver is treated as an oracle.
-/

/-- A decision variable category, mirroring PuLP's `cat` argument
(`"Continuous"` vs `pulp.LpInteger`). -/
inductive VCat where
  | continuous
  | integer
deriving DecidableEq, Repr

/-- An affine expression over variables of type `V`: a rational constant
plus a list of `(coefficient, variable)` terms, in construction order.
This mirrors PuLP's `LpAffineExpression`. -/
structure AffExpr (V : Type) where
  const : ℚ
  terms : List (ℚ × V)
deriving DecidableEq, Repr

/-- The sense of a linear constraint (`==`, `>=`, `<=`). -/
inductive Sense where
  | eq
  | ge
  | le
deriving DecidableEq, Repr

/-- A named linear constraint `lhs (sense) rhs`, as registered on a PuLP
model via `model += (expr, name)`. -/
structure Constraint (V : Type) where
  name : String
  sense : Sense
  lhs : AffExpr V
  rhs : AffExpr V
deriving DecidableEq, Repr

/-- A variable declaration, mirroring `pulp.LpVariable(...)` with its
optional bounds and category. -/
structure VarDecl (V : Type) where
  v : V
  lowBound : Option ℚ
  upBound : Option ℚ
  cat : VCat
deriving DecidableEq, Repr

/-- Python dictionary lookup `d[k]` on an association list: the value at
the key, or `none` (a `KeyError`) when the key is absent. -/
def pyGet {α β : Type} [DecidableEq α] : List (α × β) → α → Option β
  | [], _ => none
  | (k', v) :: rest, k => if k' = k then some v else pyGet rest k

/-- Python dictionary assignment `d[k] = v`: overwrite in place when the
key is present (keeping its position), otherwise append. -/
def dictInsert {α β : Type} [DecidableEq α] (d : List (α × β)) (k : α) (v : β) :
    List (α × β) :=
  if d.any (fun kv => kv.1 = k) then
    d.map (fun kv => if kv.1 = k then (k, v) else kv)
  else
    d ++ [(k, v)]

/-- Evaluation of an affine expression under an assignment of rationals
to variables. -/
def evalAff {V : Type} (asg : V → ℚ) (e : AffExpr V) : ℚ :=
  e.const + (e.terms.map (fun cv => cv.1 * asg cv.2)).sum

/-- An assignment satisfies a constraint when the evaluated sides compare
according to the constraint's sense. -/
def holdsC {V : Type} (asg : V → ℚ) (c : Constraint V) : Prop :=
  match c.sense with
  | Sense.eq => evalAff asg c.lhs = evalAff asg c.rhs
  | Sense.ge => evalAff asg c.lhs ≥ evalAff asg c.rhs
  | Sense.le => evalAff asg c.lhs ≤ evalAff asg c.rhs

instance {V : Type} (asg : V → ℚ) (c : Constraint V) : Decidable (holdsC asg c) := by
  unfold holdsC
  exact match c.sense with
  | Sense.eq => inferInstanceAs (Decidable (_ = _))
  | Sense.ge => inferInstanceAs (Decidable (_ ≥ _))
  | Sense.le => inferInstanceAs (Decidable (_ ≤ _))

/-- An assignment respects a list of variable declarations when it lies
within every declared lower and upper bound. -/
def satisfiesBounds {V : Type} (asg : V → ℚ) (ds : List (VarDecl V)) : Prop :=
  ∀ d ∈ ds, (∀ lb, d.lowBound = some lb → lb ≤ asg d.v) ∧
            (∀ ub, d.upBound = some ub → asg d.v ≤ ub)

/-!
## The inventory-balance model (`lp_model` in `src/examples/engine.py`)
-/

/-- The decision variables of the inventory model: `Inventory`,
`Shortage` and `Excess`, each indexed by `(product, period)`. -/
inductive IVar where
  | inv (i t : String)
  | short (i t : String)
  | exc (i t : String)
deriving DecidableEq, Repr

/-- The input bundle of `lp_model` (both copies share this signature).
Dictionaries are association lists; costs are scalars. -/
structure InvParams where
  products : List String
  periods : List String
  initial_inventory : List (String × ℚ)
  effective_demand : List ((String × String) × ℚ)
  yielded_supply : List ((String × String) × ℚ)
  safety_stock_target : List (String × ℚ)
  shortage_cost : ℚ
  excess_cost : ℚ

/-- The result dictionary built by `lp_model` after solving: the status
string, the objective value (possibly `None`), and each variable
family's `.value()` read back per `(product, period)` pair.  Shared by
both copies of `lp_model`. -/
structure InvResults where
  status : String
  total_cost : Option ℚ
  inventory : List ((String × String) × Option ℚ)
  shortage : List ((String × String) × Option ℚ)
  excess : List ((String × String) × Option ℚ)
deriving DecidableEq, Repr

namespace Engine

/-- Name of the balance constraint, `f"Balance_{i}_{t}"`. -/
def balName (i t : String) : String := "Balance_" ++ i ++ "_" ++ t

/-- Name of the excess constraint, `f"Excess_Calc_{i}_{t}"`. -/
def excName (i t : String) : String := "Excess_Calc_" ++ i ++ "_" ++ t

/-- Name of the shortage constraint, `f"Shortage_Calc_{i}_{t}"`. -/
def shName (i t : String) : String := "Shortage_Calc_" ++ i ++ "_" ++ t

/-- First-period balance constraint:
`inventory[i,t] == initial_inventory[i] + yielded_supply[i,t] - effective_demand[i,t] + shortage[i,t]`.
The three numeric summands fold into the affine constant, exactly as
Python evaluates `number + number - number + var`. -/
def balanceFirstC (i t : String) (init sup dem : ℚ) : Constraint IVar :=
  ⟨balName i t, Sense.eq, ⟨0, [(1, IVar.inv i t)]⟩,
    ⟨init + sup - dem, [(1, IVar.short i t)]⟩⟩

/-- Subsequent-period balance constraint:
`inventory[i,t] == inventory[i,prev_t] + yielded_supply[i,t] - effective_demand[i,t] + shortage[i,t]`. -/
def balanceNextC (i t pt : String) (sup dem : ℚ) : Constraint IVar :=
  ⟨balName i t, Sense.eq, ⟨0, [(1, IVar.inv i t)]⟩,
    ⟨sup - dem, [(1, IVar.inv i pt), (1, IVar.short i t)]⟩⟩

/-- Excess constraint: `excess[i,t] >= inventory[i,t] - safety_stock_target[i]`. -/
def excessCalcC (i t : String) (sst : ℚ) : Constraint IVar :=
  ⟨excName i t, Sense.ge, ⟨0, [(1, IVar.exc i t)]⟩,
    ⟨-sst, [(1, IVar.inv i t)]⟩⟩

/-- First-period shortage constraint:
`shortage[i,t] >= effective_demand[i,t] - (initial_inventory[i] + yielded_supply[i,t])`
(the right-hand side is a pure number). -/
def shortageFirstC (i t : String) (init sup dem : ℚ) : Constraint IVar :=
  ⟨shName i t, Sense.ge, ⟨0, [(1, IVar.short i t)]⟩,
    ⟨dem - (init + sup), []⟩⟩

/-- Subsequent-period shortage constraint:
`shortage[i,t] >= effective_demand[i,t] - (inventory[i,prev_t] + yielded_supply[i,t])`. -/
def shortageNextC (i t pt : String) (sup dem : ℚ) : Constraint IVar :=
  ⟨shName i t, Sense.ge, ⟨0, [(1, IVar.short i t)]⟩,
    ⟨dem - sup, [(-1, IVar.inv i pt)]⟩⟩

/-- One iteration of the inner `for t_idx, t in enumerate(periods)` loop
of `lp_model` for product `i`: the previous period is `none` on the
first iteration (`t_idx == 0`) and `some prev_t` afterwards.  Each
iteration registers the balance, excess and shortage constraints in that
order; every dictionary access is an `Option`-valued lookup whose
failure (`KeyError`) aborts the whole formulation. -/
def periodStep (P : InvParams) (i : String) (prevOpt : Option String) (t : String) :
    Option (List (Constraint IVar)) :=
  match prevOpt with
  | none => do
      let init ← pyGet P.initial_inventory i
      let sup ← pyGet P.yielded_supply (i, t)
      let dem ← pyGet P.effective_demand (i, t)
      let sst ← pyGet P.safety_stock_target i
      pure [balanceFirstC i t init sup dem, excessCalcC i t sst,
            shortageFirstC i t init sup dem]
  | some pt => do
      let sup ← pyGet P.yielded_supply (i, t)
      let dem ← pyGet P.effective_demand (i, t)
      let sst ← pyGet P.safety_stock_target i
      pure [balanceNextC i t pt sup dem, excessCalcC i t sst,
            shortageNextC i t pt sup dem]

/-- The inner period loop of `lp_model` for a fixed product, threading
the previous period exactly as `periods[t_idx - 1]` does. -/
def periodLoop (P : InvParams) (i : String) :
    Option String → List String → Option (List (Constraint IVar))
  | _, [] => pure []
  | prevOpt, t :: rest => do
      let cs ← periodStep P i prevOpt t
      let more ← periodLoop P i (some t) rest
      pure (cs ++ more)

/-- The outer `for i in products` loop of `lp_model`: each product
contributes its period loop's constraints, in order. -/
def productLoop (P : InvParams) : List String → Option (List (Constraint IVar))
  | [] => pure []
  | i :: rest => do
      let cs ← periodLoop P i none P.periods
      let more ← productLoop P rest
      pure (cs ++ more)

/-- The full constraint list built by `lp_model`.  `none` means the
Python code raised a `KeyError` during formulation. -/
def lpConstraints (P : InvParams) : Option (List (Constraint IVar)) :=
  productLoop P P.products

/-- The `(i, t)` index list `[(i, t) for i in products for t in periods]`. -/
def idxPairs (P : InvParams) : List (String × String) :=
  P.products.flatMap (fun i => P.periods.map (fun t => (i, t)))

/-- The variable declarations of `lp_model`: `Inventory`, `Shortage` and
`Excess` families, each over `idxPairs`, with `lowBound=0` and
continuous category. -/
def lpVarDecls (P : InvParams) : List (VarDecl IVar) :=
  (idxPairs P).map (fun it => ⟨IVar.inv it.1 it.2, some 0, none, VCat.continuous⟩) ++
  (idxPairs P).map (fun it => ⟨IVar.short it.1 it.2, some 0, none, VCat.continuous⟩) ++
  (idxPairs P).map (fun it => ⟨IVar.exc it.1 it.2, some 0, none, VCat.continuous⟩)

/-- The objective of `lp_model`:
`lpSum(shortage_cost * shortage[i,t] + excess_cost * excess[i,t] for i in products for t in periods)`. -/
def lpObjective (P : InvParams) : AffExpr IVar :=
  ⟨0, P.products.flatMap (fun i => P.periods.flatMap (fun t =>
    [(P.shortage_cost, IVar.short i t), (P.excess_cost, IVar.exc i t)]))⟩

/-- Result extraction of `lp_model`, with the solver treated as an
oracle supplying the status, objective value and per-variable values. -/
def lpResults (P : InvParams) (status : String) (objVal : Option ℚ)
    (val : IVar → Option ℚ) : InvResults :=
  ⟨status, objVal,
    (idxPairs P).map (fun it => (it, val (IVar.inv it.1 it.2))),
    (idxPairs P).map (fun it => (it, val (IVar.short it.1 it.2))),
    (idxPairs P).map (fun it => (it, val (IVar.exc it.1 it.2)))⟩

/-- Feasibility for the inventory model: the assignment respects every
variable bound and satisfies every formulated constraint. -/
def Feasible (P : InvParams) (cs : List (Constraint IVar)) (asg : IVar → ℚ) : Prop :=
  satisfiesBounds asg (lpVarDecls P) ∧ ∀ c ∈ cs, holdsC asg c

end Engine


/-!
## The inventory-balance model as duplicated in `src/plugins/mcp/server.py`

`server.py` contains its own copy of `lp_model` (lines 105-209), embedded
here independently so the two copies can be compared.
-/

namespace Server

/-- Name of the balance constraint, `f"Balance_{i}_{t}"`. -/
def balName (i t : String) : String := "Balance_" ++ i ++ "_" ++ t

/-- Name of the excess constraint, `f"Excess_Calc_{i}_{t}"`. -/
def excName (i t : String) : String := "Excess_Calc_" ++ i ++ "_" ++ t

/-- Name of the shortage constraint, `f"Shortage_Calc_{i}_{t}"`. -/
def shName (i t : String) : String := "Shortage_Calc_" ++ i ++ "_" ++ t

/-- First-period balance constraint:
`inventory[i,t] == initial_inventory[i] + yielded_supply[i,t] - effective_demand[i,t] + shortage[i,t]`.
The three numeric summands fold into the affine constant, exactly as
Python evaluates `number + number - number + var`. -/
def balanceFirstC (i t : String) (init sup dem : ℚ) : Constraint IVar :=
  ⟨balName i t, Sense.eq, ⟨0, [(1, IVar.inv i t)]⟩,
    ⟨init + sup - dem, [(1, IVar.short i t)]⟩⟩

/-- Subsequent-period balance constraint:
`inventory[i,t] == inventory[i,prev_t] + yielded_supply[i,t] - effective_demand[i,t] + shortage[i,t]`. -/
def balanceNextC (i t pt : String) (sup dem : ℚ) : Constraint IVar :=
  ⟨balName i t, Sense.eq, ⟨0, [(1, IVar.inv i t)]⟩,
    ⟨sup - dem, [(1, IVar.inv i pt), (1, IVar.short i t)]⟩⟩

/-- Excess constraint: `excess[i,t] >= inventory[i,t] - safety_stock_target[i]`. -/
def excessCalcC (i t : String) (sst : ℚ) : Constraint IVar :=
  ⟨excName i t, Sense.ge, ⟨0, [(1, IVar.exc i t)]⟩,
    ⟨-sst, [(1, IVar.inv i t)]⟩⟩

/-- First-period shortage constraint:
`shortage[i,t] >= effective_demand[i,t] - (initial_inventory[i] + yielded_supply[i,t])`
(the right-hand side is a pure number). -/
def shortageFirstC (i t : String) (init sup dem : ℚ) : Constraint IVar :=
  ⟨shName i t, Sense.ge, ⟨0, [(1, IVar.short i t)]⟩,
    ⟨dem - (init + sup), []⟩⟩

/-- Subsequent-period shortage constraint:
`shortage[i,t] >= effective_demand[i,t] - (inventory[i,prev_t] + yielded_supply[i,t])`. -/
def shortageNextC (i t pt : String) (sup dem : ℚ) : Constraint IVar :=
  ⟨shName i t, Sense.ge, ⟨0, [(1, IVar.short i t)]⟩,
    ⟨dem - sup, [(-1, IVar.inv i pt)]⟩⟩

/-- One iteration of the inner `for t_idx, t in enumerate(periods)` loop
of `lp_model` for product `i`: the previous period is `none` on the
first iteration (`t_idx == 0`) and `some prev_t` afterwards.  Each
iteration registers the balance, excess and shortage constraints in that
order; every dictionary access is an `Option`-valued lookup whose
failure (`KeyError`) aborts the whole formulation. -/
def periodStep (P : InvParams) (i : String) (prevOpt : Option String) (t : String) :
    Option (List (Constraint IVar)) :=
  match prevOpt with
  | none => do
      let init ← pyGet P.initial_inventory i
      let sup ← pyGet P.yielded_supply (i, t)
      let dem ← pyGet P.effective_demand (i, t)
      let sst ← pyGet P.safety_stock_target i
      pure [balanceFirstC i t init sup dem, excessCalcC i t sst,
            shortageFirstC i t init sup dem]
  | some pt => do
      let sup ← pyGet P.yielded_supply (i, t)
      let dem ← pyGet P.effective_demand (i, t)
      let sst ← pyGet P.safety_stock_target i
      pure [balanceNextC i t pt sup dem, excessCalcC i t sst,
            shortageNextC i t pt sup dem]

/-- The inner period loop of `lp_model` for a fixed product, threading
the previous period exactly as `periods[t_idx - 1]` does. -/
def periodLoop (P : InvParams) (i : String) :
    Option String → List String → Option (List (Constraint IVar))
  | _, [] => pure []
  | prevOpt, t :: rest => do
      let cs ← periodStep P i prevOpt t
      let more ← periodLoop P i (some t) rest
      pure (cs ++ more)

/-- The outer `for i in products` loop of `lp_model`: each product
contributes its period loop's constraints, in order. -/
def productLoop (P : InvParams) : List String → Option (List (Constraint IVar))
  | [] => pure []
  | i :: rest => do
      let cs ← periodLoop P i none P.periods
      let more ← productLoop P rest
      pure (cs ++ more)

/-- The full constraint list built by `lp_model`.  `none` means the
Python code raised a `KeyError` during formulation. -/
def lpConstraints (P : InvParams) : Option (List (Constraint IVar)) :=
  productLoop P P.products

/-- The `(i, t)` index list `[(i, t) for i in products for t in periods]`. -/
def idxPairs (P : InvParams) : List (String × String) :=
  P.products.flatMap (fun i => P.periods.map (fun t => (i, t)))

/-- The variable declarations of `lp_model`: `Inventory`, `Shortage` and
`Excess` families, each over `idxPairs`, with `lowBound=0` and
continuous category. -/
def lpVarDecls (P : InvParams) : List (VarDecl IVar) :=
  (idxPairs P).map (fun it => ⟨IVar.inv it.1 it.2, some 0, none, VCat.continuous⟩) ++
  (idxPairs P).map (fun it => ⟨IVar.short it.1 it.2, some 0, none, VCat.continuous⟩) ++
  (idxPairs P).map (fun it => ⟨IVar.exc it.1 it.2, some 0, none, VCat.continuous⟩)

/-- The objective of `lp_model`:
`lpSum(shortage_cost * shortage[i,t] + excess_cost * excess[i,t] for i in products for t in periods)`. -/
def lpObjective (P : InvParams) : AffExpr IVar :=
  ⟨0, P.products.flatMap (fun i => P.periods.flatMap (fun t =>
    [(P.shortage_cost, IVar.short i t), (P.excess_cost, IVar.exc i t)]))⟩

/-- Result extraction of `lp_model`, with the solver treated as an
oracle supplying the status, objective value and per-variable values. -/
def lpResults (P : InvParams) (status : String) (objVal : Option ℚ)
    (val : IVar → Option ℚ) : InvResults :=
  ⟨status, objVal,
    (idxPairs P).map (fun it => (it, val (IVar.inv it.1 it.2))),
    (idxPairs P).map (fun it => (it, val (IVar.short it.1 it.2))),
    (idxPairs P).map (fun it => (it, val (IVar.exc it.1 it.2)))⟩

/-- Feasibility for the inventory model: the assignment respects every
variable bound and satisfies every formulated constraint. -/
def Feasible (P : InvParams) (cs : List (Constraint IVar)) (asg : IVar → ℚ) : Prop :=
  satisfiesBounds asg (lpVarDecls P) ∧ ∀ c ∈ cs, holdsC asg c

end Server

/-!
## Flattened-key normalization (`optimize_inventory` in `src/plugins/mcp/server.py`)

The MCP tool receives `effective_demand` / `yielded_supply` as mappings
keyed by a single string `"<product>_<period>"` and reconstructs
`(product, period)` pairs (server.py lines 246-261).  Strings are
embedded as their character lists.
-/

namespace Mcp

/-- Python's `s.split('_', 1)` viewed as: `none` when the string has no
underscore (so `len(parts) == 1`), otherwise `some (before, after)` for
the first underscore. -/
def splitOnce : List Char → Option (List Char × List Char)
  | [] => none
  | c :: rest =>
      if c = '_' then some ([], rest)
      else (splitOnce rest).map (fun ab => (c :: ab.1, ab.2))

/-- The key-splitting heuristic of `optimize_inventory`:
`parts = key.split('_', 1)`; when two parts exist,
`product = parts[0] + '_' + parts[1].split('_')[0]` and
`period = parts[1].split('_', 1)[1] if '_' in parts[1] else parts[1]`;
a key with no underscore yields `none` (the entry is skipped). -/
def splitKey (key : List Char) : Option (List Char × List Char) :=
  match splitOnce key with
  | none => none
  | some pr =>
      let product := pr.1 ++ '_' :: pr.2.takeWhile (fun c => c ≠ '_')
      let period :=
        match splitOnce pr.2 with
        | some qr => qr.2
        | none => pr.2
      some (product, period)

/-- The body of the reconstruction loop of `optimize_inventory`: a key
`splitKey` accepts is assigned into the dictionary
(`demand_tuples[(product, period)] = value`); a rejected key leaves the
dictionary untouched. -/
def unflattenStep (d : List ((List Char × List Char) × ℚ))
    (kv : List Char × ℚ) : List ((List Char × List Char) × ℚ) :=
  match splitKey kv.1 with
  | some pr => dictInsert d pr kv.2
  | none => d

/-- The reconstruction loop of `optimize_inventory`: fold the flattened
entries in order into a Python dictionary, starting empty. -/
def unflatten (entries : List (List Char × ℚ)) :
    List ((List Char × List Char) × ℚ) :=
  entries.foldl unflattenStep []

/-- Flattening a `(product, period)` pair into the `"<product>_<period>"`
composite key of the §4.1 convention. -/
def flattenKey (p t : List Char) : List Char := p ++ '_' :: t

/-- Flattening a whole `(product, period) → value` mapping. -/
def flattenMap (m : List ((List Char × List Char) × ℚ)) :
    List (List Char × ℚ) :=
  m.map (fun kv => (flattenKey kv.1.1 kv.1.2, kv.2))

end Mcp

/-!
## Downstream cost aggregation

`main` in `src/examples/engine.py` (lines 199-206) and
`optimize_inventory` in `src/plugins/mcp/server.py` (lines 298-309)
both aggregate shortage and excess costs from the result mappings with
`results['shortage'].get((i, t), 0) or 0`: a missing key defaults to
`0` via `.get`, and a `None` value becomes `0` via `or 0`.
-/

/-- `(m.get(k, 0) or 0)`: the stored value, with a missing key or a
stored `None` both collapsing to `0`. -/
def resGetOr0 (m : List ((String × String) × Option ℚ)) (k : String × String) : ℚ :=
  match pyGet m k with
  | none => 0
  | some none => 0
  | some (some v) => v

/-- `sum(shortage_cost * (results['shortage'].get((i, t), 0) or 0) for i in products for t in periods)`. -/
def totalShortageCost (shortage_cost : ℚ) (products periods : List String)
    (shortageRes : List ((String × String) × Option ℚ)) : ℚ :=
  (products.flatMap (fun i => periods.map
    (fun t => shortage_cost * resGetOr0 shortageRes (i, t)))).sum

/-- `sum(excess_cost * (results['excess'].get((i, t), 0) or 0) for i in products for t in periods)`. -/
def totalExcessCost (excess_cost : ℚ) (products periods : List String)
    (excessRes : List ((String × String) × Option ℚ)) : ℚ :=
  (products.flatMap (fun i => periods.map
    (fun t => excess_cost * resGetOr0 excessRes (i, t)))).sum

/-!
## The production-mix model (`main` in `src/examples/product-mix.py`)

The blending model's data is hard-coded in `main`; the formulation is
embedded with that data.
-/

namespace Mix

/-- Variables of the mix model: `z[i,j]` (tons of raw material `i`
allocated to product `j`) and `y[j]` (tons of product `j` produced). -/
inductive MVar where
  | z (i j : String)
  | y (j : String)
deriving DecidableEq, Repr

def raw_materials : List String := ["A", "B", "C"]

def products : List String := ["Super", "Unleaded", "Super_Unleaded"]

def octane_number : List (String × ℚ) := [("A", 120), ("B", 90), ("C", 130)]

def material_cost : List (String × ℚ) := [("A", 38), ("B", 42), ("C", 105)]

def max_available : List (String × ℚ) := [("A", 1000), ("B", 1200), ("C", 700)]

def octane_requirement : List (String × ℚ) :=
  [("Super", 94), ("Unleaded", 92), ("Super_Unleaded", 96)]

def selling_price : List (String × ℚ) :=
  [("Super", 85), ("Unleaded", 80), ("Super_Unleaded", 88)]

def demand : List (String × ℚ) :=
  [("Super", 800), ("Unleaded", 1100), ("Super_Unleaded", 500)]

/-- Variable declarations: every `z[i,j]` has `lowBound=0`; every `y[j]`
has `lowBound=0` and `upBound=demand[j]`. -/
def mixVarDecls : Option (List (VarDecl MVar)) := do
  let zd := raw_materials.flatMap (fun i => products.map
    (fun j => (⟨MVar.z i j, some 0, none, VCat.continuous⟩ : VarDecl MVar)))
  let yd ← products.mapM (fun j => (pyGet demand j).map
    (fun d => (⟨MVar.y j, some 0, some d, VCat.continuous⟩ : VarDecl MVar)))
  pure (zd ++ yd)

/-- Availability constraint for raw material `i`:
`lpSum([z[i,j] for j in products]) <= max_available[i]`. -/
def availabilityC (i : String) : Option (Constraint MVar) := do
  let cap ← pyGet max_available i
  pure ⟨"Material_Availability_" ++ i, Sense.le,
    ⟨0, products.map (fun j => (1, MVar.z i j))⟩, ⟨cap, []⟩⟩

/-- Mass-balance constraint for product `j`:
`lpSum([z[i,j] for i in raw_materials]) == y[j]`. -/
def massBalanceC (j : String) : Constraint MVar :=
  ⟨"Mass_Balance_" ++ j, Sense.eq,
    ⟨0, raw_materials.map (fun i => (1, MVar.z i j))⟩, ⟨0, [(1, MVar.y j)]⟩⟩

/-- Octane constraint for product `j`:
`lpSum([octane_number[i] * z[i,j] for i in raw_materials]) >= octane_requirement[j] * y[j]`. -/
def octaneC (j : String) : Option (Constraint MVar) := do
  let terms ← raw_materials.mapM (fun i => (pyGet octane_number i).map
    (fun oc => (oc, MVar.z i j)))
  let req ← pyGet octane_requirement j
  pure ⟨"Octane_Requirement_" ++ j, Sense.ge, ⟨0, terms⟩, ⟨0, [(req, MVar.y j)]⟩⟩

/-- The full constraint list of the mix model: availability constraints
over raw materials, then mass-balance constraints over products, then
octane constraints over products, in registration order. -/
def mixConstraints : Option (List (Constraint MVar)) := do
  let avail ← raw_materials.mapM availabilityC
  let mass := products.map massBalanceC
  let oct ← products.mapM octaneC
  pure (avail ++ mass ++ oct)

/-- The (maximization) objective `revenue - material_costs`:
`lpSum(selling_price[j] * y[j]) - lpSum(material_cost[i] * z[i,j])`. -/
def mixObjective : Option (AffExpr MVar) := do
  let rev ← products.mapM (fun j => (pyGet selling_price j).map
    (fun pr => (pr, MVar.y j)))
  let cost ← (raw_materials.flatMap (fun i => products.map (fun j => (i, j)))).mapM
    (fun ij => (pyGet material_cost ij.1).map (fun c => (-c, MVar.z ij.1 ij.2)))
  pure ⟨0, rev ++ cost⟩

/-- The concrete constraint list the mix model formulates for its
hard-coded data (availability, then mass balance, then octane). -/
def mixCs : List (Constraint MVar) :=
  [⟨"Material_Availability_A", Sense.le,
     ⟨0, [(1, MVar.z "A" "Super"), (1, MVar.z "A" "Unleaded"),
          (1, MVar.z "A" "Super_Unleaded")]⟩, ⟨1000, []⟩⟩,
   ⟨"Material_Availability_B", Sense.le,
     ⟨0, [(1, MVar.z "B" "Super"), (1, MVar.z "B" "Unleaded"),
          (1, MVar.z "B" "Super_Unleaded")]⟩, ⟨1200, []⟩⟩,
   ⟨"Material_Availability_C", Sense.le,
     ⟨0, [(1, MVar.z "C" "Super"), (1, MVar.z "C" "Unleaded"),
          (1, MVar.z "C" "Super_Unleaded")]⟩, ⟨700, []⟩⟩,
   massBalanceC "Super", massBalanceC "Unleaded", massBalanceC "Super_Unleaded",
   ⟨"Octane_Requirement_Super", Sense.ge,
     ⟨0, [(120, MVar.z "A" "Super"), (90, MVar.z "B" "Super"),
          (130, MVar.z "C" "Super")]⟩, ⟨0, [(94, MVar.y "Super")]⟩⟩,
   ⟨"Octane_Requirement_Unleaded", Sense.ge,
     ⟨0, [(120, MVar.z "A" "Unleaded"), (90, MVar.z "B" "Unleaded"),
          (130, MVar.z "C" "Unleaded")]⟩, ⟨0, [(92, MVar.y "Unleaded")]⟩⟩,
   ⟨"Octane_Requirement_Super_Unleaded", Sense.ge,
     ⟨0, [(120, MVar.z "A" "Super_Unleaded"), (90, MVar.z "B" "Super_Unleaded"),
          (130, MVar.z "C" "Super_Unleaded")]⟩, ⟨0, [(96, MVar.y "Super_Unleaded")]⟩⟩]

/-- Structural marker of a mass-balance equality for product `j`: an
equality constraint whose right-hand side is exactly the single term
`y[j]`. -/
def isMassBalanceFor (j : String) (c : Constraint MVar) : Bool :=
  decide (c.sense = Sense.eq ∧ c.rhs = AffExpr.mk 0 [(1, MVar.y j)])

end Mix

/-!
## The multi-period production-planning model (`main` in `src/examples/multi-period.py`)
-/

namespace MultiPeriod

/-- Variables of the multi-period model: production `x[p,t]` and
end-of-period inventory `inv[p,t]`. -/
inductive PVar where
  | x (p t : String)
  | inv (p t : String)
deriving DecidableEq, Repr

def products : List String := ["A", "B"]

def periods : List String := ["January", "February", "March"]

/-- `x[p,t] = pulp.LpVariable(f"x_{p}_{t}", lowBound=0, cat=pulp.LpInteger)`. -/
def xDecl (p t : String) : VarDecl PVar :=
  ⟨PVar.x p t, some 0, none, VCat.integer⟩

/-- `inv[p,t] = pulp.LpVariable(f"inv_{p}_{t}", lowBound=0, cat=pulp.LpInteger)`. -/
def invDecl (p t : String) : VarDecl PVar :=
  ⟨PVar.inv p t, some 0, none, VCat.integer⟩

/-- All variable declarations of the model: the `x` comprehension over
`products × periods`, then the `inv` comprehension. -/
def varDecls : List (VarDecl PVar) :=
  (products.flatMap (fun p => periods.map (fun t => xDecl p t))) ++
  (products.flatMap (fun p => periods.map (fun t => invDecl p t)))

end MultiPeriod

/-!
## Definitions used to state the inventory-model claims
-/

namespace Engine

/-- Structural marker of a balance equality for `(p, t)`: an equality
constraint whose left-hand side is exactly the single term
`inventory[p,t]` (the shape of every balance constraint; excess and
shortage constraints are inequalities on other variables). -/
def isBalanceFor (p t : String) (c : Constraint IVar) : Bool :=
  decide (c.sense = Sense.eq ∧ c.lhs = AffExpr.mk 0 [(1, IVar.inv p t)])

/-- The predecessor of the period at position `idx`, as the source
computes it: the incoming previous period (`none` at the start of the
loop) for `idx = 0`, and `periods[idx - 1]` afterwards. -/
def prevAt (prevOpt : Option String) (ts : List String) : ℕ → Option String
  | 0 => prevOpt
  | j + 1 => ts[j]?

/-- The balance equality the specification claims for product `p` and
period `t`, given the period's predecessor (`none` selects the
first-period form with `initial_inventory`). -/
def expectedBalance (P : InvParams) (p t : String) :
    Option String → Option (Constraint IVar)
  | none => do
      let init ← pyGet P.initial_inventory p
      let sup ← pyGet P.yielded_supply (p, t)
      let dem ← pyGet P.effective_demand (p, t)
      pure (balanceFirstC p t init sup dem)
  | some pt => do
      let sup ← pyGet P.yielded_supply (p, t)
      let dem ← pyGet P.effective_demand (p, t)
      pure (balanceNextC p t pt sup dem)

end Engine

/-- The implicit key-coverage precondition of `lp_model`: demand and
supply hold an entry for every `products × periods` pair, and initial
inventory and safety-stock targets one for every product. -/
def HasAllKeys (P : InvParams) : Prop :=
  ∀ i ∈ P.products,
    (pyGet P.initial_inventory i).isSome ∧
    (pyGet P.safety_stock_target i).isSome ∧
    ∀ t ∈ P.periods,
      (pyGet P.effective_demand (i, t)).isSome ∧
      (pyGet P.yielded_supply (i, t)).isSome

instance (P : InvParams) : Decidable (HasAllKeys P) := by
  unfold HasAllKeys
  infer_instance

/-- The concrete §8 scenario: one product `"X"`, one period `"T1"`,
no initial stock, demand 100, supply 60, zero safety stock,
shortage cost 5, excess cost 1. -/
def scenarioP : InvParams :=
  ⟨["X"], ["T1"], [("X", 0)], [(("X", "T1"), 100)], [(("X", "T1"), 60)],
   [("X", 0)], 5, 1⟩

/-- The constraint list `lp_model` formulates for `scenarioP`. -/
def scenarioCs : List (Constraint IVar) :=
  [Engine.balanceFirstC "X" "T1" 0 60 100,
   Engine.excessCalcC "X" "T1" 0,
   Engine.shortageFirstC "X" "T1" 0 60 100]

/-- The claimed optimal assignment for `scenarioP`: shortage 40,
inventory 0, excess 0. -/
def scenarioAsg : IVar → ℚ :=
  fun v => if v = IVar.short "X" "T1" then 40 else 0

/-- A violating input with an empty period list: one product but no
dictionary entries at all. -/
def noKeysP : InvParams := ⟨["X"], [], [], [], [], [], 5, 1⟩

/-!
## Helper lemmas
-/

namespace Mcp

theorem splitOnce_of_not_mem {s : List Char} (h : '_' ∉ s) : splitOnce s = none := by
  induction s with
  | nil => rfl
  | cons c rest ih =>
      have hc : ¬ c = '_' := fun hc => h (hc ▸ List.mem_cons_self c rest)
      have hr : '_' ∉ rest := fun hm => h (List.mem_cons_of_mem c hm)
      simp [splitOnce, hc, ih hr]

theorem splitOnce_append {a : List Char} (b : List Char) (h : '_' ∉ a) :
    splitOnce (a ++ '_' :: b) = some (a, b) := by
  induction a with
  | nil => simp [splitOnce]
  | cons c a' ih =>
      have hc : ¬ c = '_' := fun hc => h (hc ▸ List.mem_cons_self c a')
      have ha : '_' ∉ a' := fun hm => h (List.mem_cons_of_mem c hm)
      simp [splitOnce, hc, ih ha]

theorem takeWhile_append_pred (p : Char → Bool) {b : List Char} (rest : List Char)
    (hb : ∀ c ∈ b, p c = true) (hu : p '_' = false) :
    (b ++ '_' :: rest).takeWhile p = b := by
  induction b with
  | nil => simp [List.takeWhile_cons, hu]
  | cons c b' ih =>
      have h1 : p c = true := hb c (List.mem_cons_self c b')
      have h2 : ∀ x ∈ b', p x = true := fun x hx => hb x (List.mem_cons_of_mem c hx)
      simp [List.takeWhile_cons, h1, ih h2]

theorem takeWhile_pred_of_all (p : Char → Bool) {b : List Char}
    (hb : ∀ c ∈ b, p c = true) : b.takeWhile p = b := by
  induction b with
  | nil => rfl
  | cons c b' ih =>
      have h1 : p c = true := hb c (List.mem_cons_self c b')
      have h2 : ∀ x ∈ b', p x = true := fun x hx => hb x (List.mem_cons_of_mem c hx)
      simp [List.takeWhile_cons, h1, ih h2]

theorem underscore_free_pred {b : List Char} (h : '_' ∉ b) :
    ∀ c ∈ b, (decide (c ≠ '_')) = true := by
  intro c hc
  simp only [decide_eq_true_eq]
  exact fun he => h (he ▸ hc)

/-- The heuristic recovers a product of the form `a_b` (one underscore)
exactly, whatever the period is. -/
theorem splitKey_flatten_one_underscore (a b t : List Char)
    (ha : '_' ∉ a) (hb : '_' ∉ b) :
    splitKey (flattenKey (a ++ '_' :: b) t) = some (a ++ '_' :: b, t) := by
  have hkey : flattenKey (a ++ '_' :: b) t = a ++ '_' :: (b ++ '_' :: t) := by
    simp [flattenKey]
  rw [hkey]
  unfold splitKey
  rw [splitOnce_append (b ++ '_' :: t) ha]
  simp only []
  rw [takeWhile_append_pred (fun c => decide (c ≠ '_')) t (underscore_free_pred hb) (by decide),
      splitOnce_append t hb]

/-- A string with exactly one underscore decomposes as
`a ++ '_' :: b` with underscore-free halves. -/
theorem one_underscore_decomp {s : List Char} (h : s.count '_' = 1) :
    ∃ a b, '_' ∉ a ∧ '_' ∉ b ∧ s = a ++ '_' :: b := by
  induction s with
  | nil => simp [List.count_nil] at h
  | cons c s' ih =>
      by_cases hc : c = '_'
      · subst hc
        have h0 : s'.count '_' = 0 := by
          have := h
          rw [List.count_cons_self] at this
          omega
        exact ⟨[], s', by simp, by simpa using List.count_eq_zero.mp h0, by simp⟩
      · have h' : s'.count '_' = 1 := by
          rwa [List.count_cons_of_ne (fun he => hc he.symm)] at h
        obtain ⟨a, b, ha, hb, hs⟩ := ih h'
        exact ⟨c :: a, b, by
          intro hm
          rcases List.mem_cons.mp hm with h1 | h2
          · exact hc h1.symm
          · exact ha h2, hb, by simp [hs]⟩

theorem dictInsert_fresh {α β : Type} [DecidableEq α] {d : List (α × β)}
    {k : α} (v : β) (h : k ∉ d.map Prod.fst) :
    dictInsert d k v = d ++ [(k, v)] := by
  unfold dictInsert
  have : d.any (fun kv => kv.1 = k) = false := by
    rw [List.any_eq_false]
    intro kv hkv
    simp only [decide_eq_true_eq]
    intro he
    exact h (he ▸ List.mem_map_of_mem Prod.fst hkv)
  simp [this]



theorem foldl_flatten_eq (m : List ((List Char × List Char) × ℚ)) :
    ∀ acc : List ((List Char × List Char) × ℚ),
      (∀ pr ∈ m.map Prod.fst, pr.1.count '_' = 1) →
      ((acc.map Prod.fst) ++ m.map Prod.fst).Nodup →
      (flattenMap m).foldl unflattenStep acc = acc ++ m := by
  induction m with
  | nil => intro acc _ _; simp [flattenMap]
  | cons hd m' ih =>
      obtain ⟨⟨p, t⟩, v⟩ := hd
      intro acc h1 h2
      have hp1 : p.count '_' = 1 := (h1 (p, t) (by simp))
      obtain ⟨a, b, ha, hb, hpd⟩ := one_underscore_decomp hp1
      have hsplit : splitKey (flattenKey p t) = some (p, t) := by
        rw [hpd]
        exact splitKey_flatten_one_underscore a b t ha hb
      have hfresh : (p, t) ∉ acc.map Prod.fst := by
        intro hmem
        exact ((List.nodup_append.mp h2).2.2 hmem) (by simp)
      have hstep : unflattenStep acc (flattenKey p t, v) = acc ++ [((p, t), v)] := by
        simp [unflattenStep, hsplit, dictInsert_fresh v hfresh]
      have h1' : ∀ pr ∈ m'.map Prod.fst, pr.1.count '_' = 1 :=
        fun pr hpr => h1 pr (by simp [hpr])
      have h2' : (((acc ++ [((p, t), v)]).map Prod.fst) ++ m'.map Prod.fst).Nodup := by
        simpa [List.append_assoc] using h2
      have := ih (acc ++ [((p, t), v)]) h1' h2'
      simp only [flattenMap, List.map_cons, List.foldl_cons]
      rw [show (flattenKey p t, v) = ((fun kv => (flattenKey kv.1.1 kv.1.2, kv.2))
            (((p, t), v) : (List Char × List Char) × ℚ)) from rfl] at hstep
      rw [hstep]
      simpa [flattenMap, List.append_assoc] using this

end Mcp

/-!
## Claims about flattened-key normalization
-/

/-- C5: for a `(product, period) → value` mapping whose product and
period names each contain exactly one underscore (the unambiguous case
of the §4.1 convention), flattening each pair to `product_period` and
unflattening through `optimize_inventory`'s key-splitting recovers the
original mapping exactly. -/
theorem C5_key_roundtrip (m : List ((List Char × List Char) × ℚ))
    (h1 : ∀ pr ∈ m.map Prod.fst, pr.1.count '_' = 1 ∧ pr.2.count '_' = 1)
    (h2 : (m.map Prod.fst).Nodup) :
    Mcp.unflatten (Mcp.flattenMap m) = m := by
  have := Mcp.foldl_flatten_eq m [] (fun pr hpr => (h1 pr hpr).1) (by simpa using h2)
  simpa [Mcp.unflatten] using this

theorem C5_key_roundtrip_witness :
    Mcp.unflatten (Mcp.flattenMap
      [(("W_A".toList, "J_1".toList), (5 : ℚ)), (("W_B".toList, "J_1".toList), (7 : ℚ))]) =
      [(("W_A".toList, "J_1".toList), (5 : ℚ)), (("W_B".toList, "J_1".toList), (7 : ℚ))] :=
  C5_key_roundtrip _ (by decide) (by decide)

/-- C6 counterexample: with products `["X"]` and periods `["T1"]`
available, the flattened key `"X_T1"` has the list-confirmable split
`("X", "T1")`, yet `optimize_inventory`'s splitting returns product
`"X_T1"` — a name not in the product list — so the candidate split is
never confirmed against the authoritative lists. -/
theorem C6_counterexample :
    Mcp.splitKey (Mcp.flattenKey "X".toList "T1".toList) =
      some ("X_T1".toList, "T1".toList) ∧
    "X".toList ∈ ["X".toList] ∧ "T1".toList ∈ ["T1".toList] ∧
    "X_T1".toList ∉ ["X".toList] := by
  refine ⟨by decide, by decide, by decide, by decide⟩

/-- C6 (amended): `optimize_inventory` applies the first-underscore
heuristic unconditionally and never consults the `products` / `periods`
arguments while splitting; in particular an underscore-free product
name `a` and underscore-free period `t` are reconstructed as the pair
`(a_t, t)`, whatever the supplied identifier lists contain. -/
theorem C6_heuristic_unconditional (a t : List Char)
    (ha : '_' ∉ a) (ht : '_' ∉ t) :
    Mcp.splitKey (Mcp.flattenKey a t) = some (Mcp.flattenKey a t, t) := by
  unfold Mcp.flattenKey
  unfold Mcp.splitKey
  rw [Mcp.splitOnce_append t ha]
  simp only []
  rw [Mcp.takeWhile_pred_of_all _ (Mcp.underscore_free_pred ht),
      Mcp.splitOnce_of_not_mem ht]

theorem C6_heuristic_unconditional_witness :
    Mcp.splitKey (Mcp.flattenKey "X".toList "T1".toList) =
      some (Mcp.flattenKey "X".toList "T1".toList, "T1".toList) :=
  C6_heuristic_unconditional "X".toList "T1".toList (by decide) (by decide)

/-- C7: an entry of the flattened mapping whose key contains no
underscore is dropped silently: the key splits to `none` and the entry
leaves the reconstructed dictionary untouched, with no error raised. -/
theorem C7_silent_skip (key : List Char) (v : ℚ) (h : '_' ∉ key) :
    Mcp.splitKey key = none ∧
    ∀ pre post, Mcp.unflatten (pre ++ (key, v) :: post) = Mcp.unflatten (pre ++ post) := by
  have hs : Mcp.splitKey key = none := by
    unfold Mcp.splitKey
    rw [Mcp.splitOnce_of_not_mem h]
  refine ⟨hs, fun pre post => ?_⟩
  unfold Mcp.unflatten
  rw [List.foldl_append, List.foldl_append, List.foldl_cons]
  have : Mcp.unflattenStep (List.foldl Mcp.unflattenStep [] pre) (key, v) =
      List.foldl Mcp.unflattenStep [] pre := by
    simp [Mcp.unflattenStep, hs]
  rw [this]

theorem C7_silent_skip_witness :
    Mcp.splitKey "abc".toList = none ∧
    Mcp.unflatten ([("W_A_J".toList, (1 : ℚ))] ++ ("abc".toList, (9 : ℚ)) :: []) =
      Mcp.unflatten ([("W_A_J".toList, (1 : ℚ))] ++ []) :=
  ⟨(C7_silent_skip "abc".toList 9 (by decide)).1,
   (C7_silent_skip "abc".toList 9 (by decide)).2 [("W_A_J".toList, (1 : ℚ))] []⟩

/-!
## Claims about downstream cost aggregation
-/

theorem pyGet_map_replace {α β : Type} [DecidableEq α] (d : List (α × β)) (k : α) (v : β) :
    pyGet (d.map (fun kv => if kv.1 = k then (k, v) else kv)) k =
      if d.any (fun kv => kv.1 = k) then some v else none := by
  induction d with
  | nil => rfl
  | cons hd tl ih =>
      obtain ⟨k0, v0⟩ := hd
      by_cases h : k0 = k
      · rw [List.map_cons, show (if ((k0, v0) : α × β).1 = k then (k, v) else (k0, v0)) = (k, v)
            from by simp [h]]
        simp [pyGet, h, List.any_cons]
      · rw [List.map_cons, show (if ((k0, v0) : α × β).1 = k then (k, v) else (k0, v0)) = (k0, v0)
            from by simp [h]]
        rw [List.any_cons, show (decide (k0 = k)) = false from decide_eq_false h,
            Bool.false_or]
        simp [pyGet, h, ih]

theorem pyGet_map_replace_ne {α β : Type} [DecidableEq α] (d : List (α × β))
    (k : α) (v : β) (k' : α) (hne : ¬ k' = k) :
    pyGet (d.map (fun kv => if kv.1 = k then (k, v) else kv)) k' = pyGet d k' := by
  induction d with
  | nil => rfl
  | cons hd tl ih =>
      obtain ⟨k0, v0⟩ := hd
      by_cases h : k0 = k
      · have hkk : ¬ k = k' := fun hh => hne hh.symm
        have hhd : ¬ k0 = k' := by rw [h]; exact hkk
        rw [List.map_cons, show (if ((k0, v0) : α × β).1 = k then (k, v) else (k0, v0)) = (k, v)
            from by simp [h]]
        simp [pyGet, hkk, hhd, ih]
      · rw [List.map_cons, show (if ((k0, v0) : α × β).1 = k then (k, v) else (k0, v0)) = (k0, v0)
            from by simp [h]]
        simp [pyGet, ih]

theorem pyGet_none_of_any_false {α β : Type} [DecidableEq α] (d : List (α × β)) (k : α)
    (h : d.any (fun kv => kv.1 = k) = false) : pyGet d k = none := by
  induction d with
  | nil => rfl
  | cons hd tl ih =>
      obtain ⟨k0, v0⟩ := hd
      simp only [List.any_cons, Bool.or_eq_false_iff] at h
      have h1 : ¬ k0 = k := by simpa using h.1
      simp [pyGet, h1, ih h.2]

theorem pyGet_append_last {α β : Type} [DecidableEq α] (d : List (α × β)) (k : α) (v : β)
    (h : pyGet d k = none) : pyGet (d ++ [(k, v)]) k = some v := by
  induction d with
  | nil => simp [pyGet]
  | cons hd tl ih =>
      obtain ⟨k0, v0⟩ := hd
      by_cases hh : k0 = k
      · simp [pyGet, hh] at h
      · simp only [pyGet] at h ⊢
        simp [hh] at h ⊢
        exact ih h

theorem pyGet_append_last_ne {α β : Type} [DecidableEq α] (d : List (α × β)) (k : α) (v : β)
    (k' : α) (hne : ¬ k' = k) : pyGet (d ++ [(k, v)]) k' = pyGet d k' := by
  induction d with
  | nil =>
      have : ¬ k = k' := fun hh => hne hh.symm
      simp [pyGet, this]
  | cons hd tl ih =>
      obtain ⟨k0, v0⟩ := hd
      simp [pyGet, ih]

/-- Python-dict update law for lookups: after `d[k] = v`, looking up `k`
yields `v` and every other key is unchanged. -/
theorem pyGet_dictInsert {α β : Type} [DecidableEq α] (d : List (α × β)) (k : α) (v : β)
    (k' : α) : pyGet (dictInsert d k v) k' = if k' = k then some v else pyGet d k' := by
  unfold dictInsert
  by_cases hany : d.any (fun kv => kv.1 = k)
  · by_cases hk : k' = k
    · subst hk
      simp [hany, pyGet_map_replace]
    · simp [hany, hk, pyGet_map_replace_ne d k v k' hk]
  · have hfalse : d.any (fun kv => kv.1 = k) = false := by
      simp only [Bool.not_eq_true] at hany
      exact hany
    have hnone := pyGet_none_of_any_false d k hfalse
    by_cases hk : k' = k
    · subst hk
      simp [hany, hnone, pyGet_append_last d k' v hnone]
    · simp [hany, hk, pyGet_append_last_ne d k v k' hk]

/-- C8: in the shortage / excess cost aggregations of `engine.main` and
`optimize_inventory`, a `(product, period)` whose result entry is
missing or holds `None` is treated as zero: the `.get((i,t), 0) or 0`
access yields `0`, and the aggregate totals are unchanged by making the
zero default explicit.  No error is raised (the aggregation is total). -/
theorem C8_missing_defaults_zero (m : List ((String × String) × Option ℚ))
    (k : String × String)
    (h : pyGet m k = none ∨ pyGet m k = some none) :
    resGetOr0 m k = 0 ∧
    ∀ sc ec ps ts,
      totalShortageCost sc ps ts m = totalShortageCost sc ps ts (dictInsert m k (some 0)) ∧
      totalExcessCost ec ps ts m = totalExcessCost ec ps ts (dictInsert m k (some 0)) := by
  have hz : resGetOr0 m k = 0 := by
    rcases h with h | h <;> simp [resGetOr0, h]
  have hcong : ∀ k', resGetOr0 (dictInsert m k (some 0)) k' = resGetOr0 m k' := by
    intro k'
    by_cases hk : k' = k
    · subst hk
      rw [show resGetOr0 (dictInsert m k' (some 0)) k' = 0 from by
        simp [resGetOr0, pyGet_dictInsert]]
      exact hz.symm
    · simp [resGetOr0, pyGet_dictInsert, hk]
  exact ⟨hz, fun sc ec ps ts =>
    ⟨by simp [totalShortageCost, hcong], by simp [totalExcessCost, hcong]⟩⟩

theorem C8_missing_defaults_zero_witness :
    resGetOr0 [(("X", "T1"), none)] ("X", "T1") = 0 ∧
    totalShortageCost 5 ["X"] ["T1"] [(("X", "T1"), none)] =
      totalShortageCost 5 ["X"] ["T1"] (dictInsert [(("X", "T1"), none)] ("X", "T1") (some 0)) ∧
    totalExcessCost 1 ["X"] ["T1"] [(("X", "T1"), none)] =
      totalExcessCost 1 ["X"] ["T1"] (dictInsert [(("X", "T1"), none)] ("X", "T1") (some 0)) :=
  ⟨(C8_missing_defaults_zero [(("X", "T1"), none)] ("X", "T1") (Or.inr (by decide))).1,
   (C8_missing_defaults_zero [(("X", "T1"), none)] ("X", "T1")
     (Or.inr (by decide))).2 5 1 ["X"] ["T1"]⟩

/-!
## Claims about the multi-period model and the duplicated lp_model
-/

/-- C4: every production variable `x[p,t]` and every inventory variable
`inv[p,t]` of the multi-period planning model is declared non-negative
(`lowBound=0`) with integer category, and every variable of the model
is integer, so the solve is a mixed-integer solve rather than a
continuous relaxation. -/
theorem C4_integrality (p t : String)
    (hp : p ∈ MultiPeriod.products) (ht : t ∈ MultiPeriod.periods) :
    MultiPeriod.xDecl p t ∈ MultiPeriod.varDecls ∧
    (MultiPeriod.xDecl p t).cat = VCat.integer ∧
    (MultiPeriod.xDecl p t).lowBound = some 0 ∧
    MultiPeriod.invDecl p t ∈ MultiPeriod.varDecls ∧
    (MultiPeriod.invDecl p t).cat = VCat.integer ∧
    (MultiPeriod.invDecl p t).lowBound = some 0 ∧
    ∀ d ∈ MultiPeriod.varDecls, d.cat = VCat.integer := by
  fin_cases hp <;> fin_cases ht <;>
    exact ⟨by decide, rfl, rfl, by decide, rfl, rfl, by decide⟩

theorem C4_integrality_witness :
    MultiPeriod.xDecl "A" "January" ∈ MultiPeriod.varDecls ∧
    (MultiPeriod.xDecl "A" "January").cat = VCat.integer ∧
    (MultiPeriod.xDecl "A" "January").lowBound = some 0 ∧
    MultiPeriod.invDecl "A" "January" ∈ MultiPeriod.varDecls ∧
    (MultiPeriod.invDecl "A" "January").cat = VCat.integer ∧
    (MultiPeriod.invDecl "A" "January").lowBound = some 0 ∧
    ∀ d ∈ MultiPeriod.varDecls, d.cat = VCat.integer :=
  C4_integrality "A" "January" (by decide) (by decide)

/-- C9: the `lp_model` of `src/examples/engine.py` and the `lp_model`
duplicated in `src/plugins/mcp/server.py` build identical formulations
(same variables, objective and constraint list) on every input, and
extract equal result dictionaries from any solver outcome. -/
theorem C9_copies_equal (P : InvParams) :
    Engine.lpConstraints P = Server.lpConstraints P ∧
    Engine.lpObjective P = Server.lpObjective P ∧
    Engine.lpVarDecls P = Server.lpVarDecls P ∧
    ∀ status objVal val,
      Engine.lpResults P status objVal val = Server.lpResults P status objVal val := by
  have hstep : ∀ i prevOpt t, Engine.periodStep P i prevOpt t = Server.periodStep P i prevOpt t :=
    fun i prevOpt t => rfl
  have hloop : ∀ i prevOpt ts, Engine.periodLoop P i prevOpt ts = Server.periodLoop P i prevOpt ts := by
    intro i prevOpt ts
    induction ts generalizing prevOpt with
    | nil => rfl
    | cons t rest ih =>
        simp only [Engine.periodLoop, Server.periodLoop, hstep, ih]
  have hprod : ∀ ps, Engine.productLoop P ps = Server.productLoop P ps := by
    intro ps
    induction ps with
    | nil => rfl
    | cons i rest ih =>
        simp only [Engine.productLoop, Server.productLoop, hloop, ih]
  exact ⟨hprod P.products, rfl, rfl, fun _ _ _ => rfl⟩

/-!
## Claim about the concrete §8 scenario
-/

/-!
## Claim about the concrete §8 scenario
-/

/-- C2: for the concrete scenario (demand 100, supply 60, no initial
stock, zero safety-stock target, shortage cost 5, excess cost 1),
`lp_model` formulates the three expected constraints; the assignment
`shortage=40, inventory=0, excess=0` is feasible with objective value
200; and every feasible assignment has objective value at least 200 —
so the minimum of the formulated objective over the feasible set is
exactly 200, attained at that assignment (an optimal solve therefore
reports `total_cost = 200` with those variable values). -/
theorem C2_concrete_optimum :
    Engine.lpConstraints scenarioP = some scenarioCs ∧
    Engine.Feasible scenarioP scenarioCs scenarioAsg ∧
    scenarioAsg (IVar.short "X" "T1") = 40 ∧
    scenarioAsg (IVar.inv "X" "T1") = 0 ∧
    scenarioAsg (IVar.exc "X" "T1") = 0 ∧
    evalAff scenarioAsg (Engine.lpObjective scenarioP) = 200 ∧
    ∀ asg : IVar → ℚ, Engine.Feasible scenarioP scenarioCs asg →
      200 ≤ evalAff asg (Engine.lpObjective scenarioP) := by
  have hobj : Engine.lpObjective scenarioP =
      ⟨0, [(5, IVar.short "X" "T1"), (1, IVar.exc "X" "T1")]⟩ := rfl
  have hdecls : Engine.lpVarDecls scenarioP =
      [⟨IVar.inv "X" "T1", some 0, none, VCat.continuous⟩,
       ⟨IVar.short "X" "T1", some 0, none, VCat.continuous⟩,
       ⟨IVar.exc "X" "T1", some 0, none, VCat.continuous⟩] := rfl
  refine ⟨rfl, ⟨?_, ?_⟩, by simp [scenarioAsg], by simp [scenarioAsg],
    by simp [scenarioAsg], ?_, ?_⟩
  · intro d hd
    rw [hdecls] at hd
    fin_cases hd <;>
      exact ⟨fun lb hlb => by
          injection hlb with h
          subst h
          simp [scenarioAsg],
        fun ub hub => Option.noConfusion hub⟩
  · intro c hc
    fin_cases hc <;>
      (simp [holdsC, Engine.balanceFirstC, Engine.excessCalcC,
             Engine.shortageFirstC, evalAff, scenarioAsg] <;> norm_num)
  · norm_num [evalAff, Engine.lpObjective, scenarioP, scenarioAsg]
    decide
  · intro asg hF
    obtain ⟨hb, hc⟩ := hF
    have h1 : holdsC asg (Engine.balanceFirstC "X" "T1" 0 60 100) :=
      hc _ (by simp [scenarioCs])
    have h2 : holdsC asg (Engine.shortageFirstC "X" "T1" 0 60 100) :=
      hc _ (by simp [scenarioCs])
    have h3 : (0 : ℚ) ≤ asg (IVar.exc "X" "T1") := by
      have hm : (⟨IVar.exc "X" "T1", some 0, none, VCat.continuous⟩ : VarDecl IVar) ∈
          Engine.lpVarDecls scenarioP := by rw [hdecls]; simp
      exact (hb _ hm).1 0 rfl
    simp only [holdsC, evalAff, Engine.balanceFirstC, Engine.shortageFirstC] at h1 h2
    rw [hobj]
    simp only [evalAff]
    norm_num at h1 h2 ⊢
    linarith

/-!
## Claim about the production-mix model
-/

/-- C3: the mix model's constraint set contains, for every product `j`,
exactly one mass-balance equality `Σ_material z[i,j] == y[j]`, and
consequently every assignment satisfying the constraint set — in
particular every optimal solution — has its allocated raw-material
tonnage for `j` summing exactly to the produced quantity `y[j]`. -/
theorem C3_mass_balance (j : String) (hj : j ∈ Mix.products) :
    Mix.mixConstraints = some Mix.mixCs ∧
    Mix.mixCs.filter (Mix.isMassBalanceFor j) = [Mix.massBalanceC j] ∧
    ∀ asg : Mix.MVar → ℚ, (∀ c ∈ Mix.mixCs, holdsC asg c) →
      (Mix.raw_materials.map (fun i => asg (Mix.MVar.z i j))).sum =
        asg (Mix.MVar.y j) := by
  refine ⟨rfl, ?_, ?_⟩
  · fin_cases hj <;> decide
  · intro asg hsat
    have hmem : Mix.massBalanceC j ∈ Mix.mixCs := by fin_cases hj <;> decide
    have hm := hsat _ hmem
    simp [holdsC, evalAff, Mix.massBalanceC, Mix.raw_materials] at hm ⊢
    linarith

theorem C3_mass_balance_witness :
    Mix.mixConstraints = some Mix.mixCs ∧
    Mix.mixCs.filter (Mix.isMassBalanceFor "Super") = [Mix.massBalanceC "Super"] ∧
    ∀ asg : Mix.MVar → ℚ, (∀ c ∈ Mix.mixCs, holdsC asg c) →
      (Mix.raw_materials.map (fun i => asg (Mix.MVar.z i "Super"))).sum =
        asg (Mix.MVar.y "Super") :=
  C3_mass_balance "Super" (by decide)

namespace Engine

theorem periodStep_some_inv (P : InvParams) (i : String) (prevOpt : Option String)
    (t : String) (cs₀ : List (Constraint IVar))
    (h : periodStep P i prevOpt t = some cs₀) :
    ∃ sup dem sst,
      pyGet P.yielded_supply (i, t) = some sup ∧
      pyGet P.effective_demand (i, t) = some dem ∧
      pyGet P.safety_stock_target i = some sst ∧
      ((∃ init, prevOpt = none ∧ pyGet P.initial_inventory i = some init ∧
          cs₀ = [balanceFirstC i t init sup dem, excessCalcC i t sst,
                 shortageFirstC i t init sup dem]) ∨
       (∃ pt, prevOpt = some pt ∧
          cs₀ = [balanceNextC i t pt sup dem, excessCalcC i t sst,
                 shortageNextC i t pt sup dem])) := by
  cases prevOpt with
  | none =>
      simp only [periodStep] at h
      cases h1 : pyGet P.initial_inventory i <;> rw [h1] at h
      · simp at h
      cases h2 : pyGet P.yielded_supply (i, t) <;> rw [h2] at h
      · simp at h
      cases h3 : pyGet P.effective_demand (i, t) <;> rw [h3] at h
      · simp at h
      cases h4 : pyGet P.safety_stock_target i <;> rw [h4] at h
      · simp at h
      simp at h
      exact ⟨_, _, _, rfl, rfl, rfl, Or.inl ⟨_, rfl, rfl, h.symm⟩⟩
  | some pt =>
      simp only [periodStep] at h
      cases h2 : pyGet P.yielded_supply (i, t) <;> rw [h2] at h
      · simp at h
      cases h3 : pyGet P.effective_demand (i, t) <;> rw [h3] at h
      · simp at h
      cases h4 : pyGet P.safety_stock_target i <;> rw [h4] at h
      · simp at h
      simp at h
      exact ⟨_, _, _, rfl, rfl, rfl, Or.inr ⟨pt, rfl, h.symm⟩⟩

end Engine

namespace Engine

theorem periodStep_filter_ne (P : InvParams) (i : String) (prevOpt : Option String)
    (t' : String) (cs₀ : List (Constraint IVar))
    (h : periodStep P i prevOpt t' = some cs₀)
    (p t : String) (hne : ¬ (i = p ∧ t' = t)) :
    cs₀.filter (isBalanceFor p t) = [] := by
  obtain ⟨sup, dem, sst, _, _, _, hcase⟩ := periodStep_some_inv P i prevOpt t' cs₀ h
  have hb2 : isBalanceFor p t (excessCalcC i t' sst) = false := by
    simp [isBalanceFor, excessCalcC]
  rcases hcase with ⟨init, _, _, rfl⟩ | ⟨pt, _, rfl⟩
  · have hb1 : isBalanceFor p t (balanceFirstC i t' init sup dem) = false := by
      simp [isBalanceFor, balanceFirstC]
      tauto
    have hb3 : isBalanceFor p t (shortageFirstC i t' init sup dem) = false := by
      simp [isBalanceFor, shortageFirstC]
    simp [List.filter_cons, hb1, hb2, hb3]
  · have hb1 : isBalanceFor p t (balanceNextC i t' pt sup dem) = false := by
      simp [isBalanceFor, balanceNextC]
      tauto
    have hb3 : isBalanceFor p t (shortageNextC i t' pt sup dem) = false := by
      simp [isBalanceFor, shortageNextC]
    simp [List.filter_cons, hb1, hb2, hb3]

theorem periodStep_filter_self (P : InvParams) (p : String) (prevOpt : Option String)
    (t : String) (cs₀ : List (Constraint IVar))
    (h : periodStep P p prevOpt t = some cs₀) :
    ∃ b, expectedBalance P p t prevOpt = some b ∧
      cs₀.filter (isBalanceFor p t) = [b] := by
  obtain ⟨sup, dem, sst, hsup, hdem, hsst, hcase⟩ := periodStep_some_inv P p prevOpt t cs₀ h
  have hb2 : isBalanceFor p t (excessCalcC p t sst) = false := by
    simp [isBalanceFor, excessCalcC]
  rcases hcase with ⟨init, hprev, hinit, rfl⟩ | ⟨pt, hprev, rfl⟩
  · subst hprev
    have hb1 : isBalanceFor p t (balanceFirstC p t init sup dem) = true := by
      simp [isBalanceFor, balanceFirstC]
    have hb3 : isBalanceFor p t (shortageFirstC p t init sup dem) = false := by
      simp [isBalanceFor, shortageFirstC]
    exact ⟨balanceFirstC p t init sup dem,
      by simp [expectedBalance, hinit, hsup, hdem],
      by simp [List.filter_cons, hb1, hb2, hb3]⟩
  · subst hprev
    have hb1 : isBalanceFor p t (balanceNextC p t pt sup dem) = true := by
      simp [isBalanceFor, balanceNextC]
    have hb3 : isBalanceFor p t (shortageNextC p t pt sup dem) = false := by
      simp [isBalanceFor, shortageNextC]
    exact ⟨balanceNextC p t pt sup dem,
      by simp [expectedBalance, hsup, hdem],
      by simp [List.filter_cons, hb1, hb2, hb3]⟩

theorem periodLoop_cons_some (P : InvParams) (i : String) (prevOpt : Option String)
    (t' : String) (rest : List String) (cs : List (Constraint IVar))
    (h : periodLoop P i prevOpt (t' :: rest) = some cs) :
    ∃ cs₀ more, periodStep P i prevOpt t' = some cs₀ ∧
      periodLoop P i (some t') rest = some more ∧ cs = cs₀ ++ more := by
  simp only [periodLoop] at h
  cases h1 : periodStep P i prevOpt t' <;> rw [h1] at h
  · simp at h
  cases h2 : periodLoop P i (some t') rest <;> rw [h2] at h
  · simp at h
  simp at h
  exact ⟨_, _, rfl, rfl, h.symm⟩

theorem periodLoop_filter_ne (P : InvParams) (i p t : String) (hne : i ≠ p) :
    ∀ (ts : List String) (prevOpt : Option String) (cs : List (Constraint IVar)),
      periodLoop P i prevOpt ts = some cs → cs.filter (isBalanceFor p t) = [] := by
  intro ts
  induction ts with
  | nil =>
      intro prevOpt cs h
      simp only [periodLoop] at h
      simp at h
      simp [h]
  | cons t' rest ih =>
      intro prevOpt cs h
      obtain ⟨cs₀, more, hstep, hloop, rfl⟩ := periodLoop_cons_some P i prevOpt t' rest cs h
      rw [List.filter_append,
          periodStep_filter_ne P i prevOpt t' cs₀ hstep p t (fun hc => hne hc.1),
          ih (some t') more hloop]
      rfl

theorem periodLoop_filter_notmem (P : InvParams) (p t : String) :
    ∀ (ts : List String) (prevOpt : Option String) (cs : List (Constraint IVar)),
      t ∉ ts → periodLoop P p prevOpt ts = some cs →
      cs.filter (isBalanceFor p t) = [] := by
  intro ts
  induction ts with
  | nil =>
      intro prevOpt cs _ h
      simp only [periodLoop] at h
      simp at h
      simp [h]
  | cons t' rest ih =>
      intro prevOpt cs hnm h
      obtain ⟨cs₀, more, hstep, hloop, rfl⟩ := periodLoop_cons_some P p prevOpt t' rest cs h
      have h1 : t' ≠ t := fun he => hnm (by rw [he]; exact List.mem_cons_self t rest)
      have h2 : t ∉ rest := fun hm => hnm (List.mem_cons_of_mem t' hm)
      rw [List.filter_append,
          periodStep_filter_ne P p prevOpt t' cs₀ hstep p t (fun hc => h1 hc.2),
          ih (some t') more h2 hloop]
      rfl

theorem periodLoop_filter_getElem (P : InvParams) (p t : String) :
    ∀ (ts : List String) (prevOpt : Option String) (idx : ℕ)
      (cs : List (Constraint IVar)),
      periodLoop P p prevOpt ts = some cs → ts.Nodup → ts[idx]? = some t →
      ∃ b, expectedBalance P p t (prevAt prevOpt ts idx) = some b ∧
        cs.filter (isBalanceFor p t) = [b] := by
  intro ts
  induction ts with
  | nil =>
      intro prevOpt idx cs _ _ hidx
      simp at hidx
  | cons t' rest ih =>
      intro prevOpt idx cs h hnd hidx
      obtain ⟨cs₀, more, hstep, hloop, rfl⟩ := periodLoop_cons_some P p prevOpt t' rest cs h
      obtain ⟨hnotmem, hnd'⟩ := List.nodup_cons.mp hnd
      rw [List.filter_append]
      cases idx with
      | zero =>
          have ht : t' = t := by simpa using hidx
          subst ht
          obtain ⟨b, hexp, hfilt⟩ := periodStep_filter_self P p prevOpt t' cs₀ hstep
          refine ⟨b, by simpa [prevAt] using hexp, ?_⟩
          rw [hfilt, periodLoop_filter_notmem P p t' rest (some t') more hnotmem hloop]
          simp
      | succ j =>
          have hidx' : rest[j]? = some t := by simpa using hidx
          have htmem : t ∈ rest := by
            obtain ⟨hlt, hget⟩ := List.getElem?_eq_some.mp hidx'
            exact hget ▸ List.getElem_mem hlt
          have hne : t' ≠ t := fun he => hnotmem (he ▸ htmem)
          rw [periodStep_filter_ne P p prevOpt t' cs₀ hstep p t (fun hc => hne hc.2)]
          obtain ⟨b, hexp, hfilt⟩ := ih (some t') j more hloop hnd' hidx'
          refine ⟨b, ?_, by simpa using hfilt⟩
          rw [show prevAt prevOpt (t' :: rest) (j + 1) = prevAt (some t') rest j from
            by cases j <;> simp [prevAt]]
          exact hexp

theorem productLoop_cons_some (P : InvParams) (i : String) (rest : List String)
    (cs : List (Constraint IVar)) (h : productLoop P (i :: rest) = some cs) :
    ∃ cs₀ more, periodLoop P i none P.periods = some cs₀ ∧
      productLoop P rest = some more ∧ cs = cs₀ ++ more := by
  simp only [productLoop] at h
  cases h1 : periodLoop P i none P.periods <;> rw [h1] at h
  · simp at h
  cases h2 : productLoop P rest <;> rw [h2] at h
  · simp at h
  simp at h
  exact ⟨_, _, rfl, rfl, h.symm⟩

theorem productLoop_filter_ne (P : InvParams) (p t : String) :
    ∀ (ps : List String) (cs : List (Constraint IVar)),
      (∀ i ∈ ps, i ≠ p) → productLoop P ps = some cs →
      cs.filter (isBalanceFor p t) = [] := by
  intro ps
  induction ps with
  | nil =>
      intro cs _ h
      simp only [productLoop] at h
      simp at h
      simp [h]
  | cons i rest ih =>
      intro cs hne h
      obtain ⟨cs₀, more, hloop, hprod, rfl⟩ := productLoop_cons_some P i rest cs h
      rw [List.filter_append,
          periodLoop_filter_ne P i p t (hne i (List.mem_cons_self i rest))
            P.periods none cs₀ hloop,
          ih more (fun i' hi' => hne i' (List.mem_cons_of_mem i hi')) hprod]
      rfl

theorem productLoop_filter (P : InvParams) (p t : String) (idx : ℕ)
    (hT : P.periods.Nodup) (hidx : P.periods[idx]? = some t) :
    ∀ (ps : List String) (cs : List (Constraint IVar)),
      productLoop P ps = some cs → ps.Nodup → p ∈ ps →
      ∃ b, expectedBalance P p t (prevAt none P.periods idx) = some b ∧
        cs.filter (isBalanceFor p t) = [b] := by
  intro ps
  induction ps with
  | nil =>
      intro cs _ _ hp
      simp at hp
  | cons i rest ih =>
      intro cs h hnd hp
      obtain ⟨cs₀, more, hloop, hprod, rfl⟩ := productLoop_cons_some P i rest cs h
      obtain ⟨hinotmem, hnd'⟩ := List.nodup_cons.mp hnd
      rw [List.filter_append]
      rcases List.mem_cons.mp hp with rfl | hp'
      · obtain ⟨b, hexp, hfilt⟩ :=
          periodLoop_filter_getElem P p t P.periods none idx cs₀ hloop hT hidx
        refine ⟨b, hexp, ?_⟩
        rw [hfilt, productLoop_filter_ne P p t rest more
          (fun i' hi' he => hinotmem (he ▸ hi')) hprod]
        simp
      · have hne : i ≠ p := fun he => hinotmem (he ▸ hp')
        rw [periodLoop_filter_ne P i p t hne P.periods none cs₀ hloop]
        obtain ⟨b, hexp, hfilt⟩ := ih more hprod hnd' hp'
        exact ⟨b, hexp, by simpa using hfilt⟩

end Engine

/-!
## Claims about the inventory-model formulation
-/

/-- C1: for every product `p` (products pairwise distinct) and every
period `t` at position `idx` of the supplied (duplicate-free) period
list, the formulation of `lp_model` contains exactly one balance
equality linking `inventory[p,t]` to the previous state: the
first-period form
`inventory[p,t] = initial_inventory[p] + supply[p,t] - demand[p,t] + shortage[p,t]`
when `idx = 0`, and the rolling form
`inventory[p,t] = inventory[p,t-1] + supply[p,t] - demand[p,t] + shortage[p,t]`
with `t-1 = periods[idx-1]` otherwise. -/
theorem C1_balance_unique (P : InvParams) (cs : List (Constraint IVar))
    (hcs : Engine.lpConstraints P = some cs)
    (hN : P.products.Nodup) (hT : P.periods.Nodup)
    (p : String) (hp : p ∈ P.products)
    (idx : ℕ) (t : String) (hidx : P.periods[idx]? = some t) :
    ∃ sup dem,
      pyGet P.yielded_supply (p, t) = some sup ∧
      pyGet P.effective_demand (p, t) = some dem ∧
      ((idx = 0 ∧ ∃ init, pyGet P.initial_inventory p = some init ∧
          cs.filter (Engine.isBalanceFor p t) =
            [Engine.balanceFirstC p t init sup dem]) ∨
       (∃ j pt, idx = j + 1 ∧ P.periods[j]? = some pt ∧
          cs.filter (Engine.isBalanceFor p t) =
            [Engine.balanceNextC p t pt sup dem])) := by
  obtain ⟨b, hexp, hfilt⟩ :=
    Engine.productLoop_filter P p t idx hT hidx P.products cs hcs hN hp
  cases idx with
  | zero =>
      simp only [Engine.prevAt] at hexp
      simp only [Engine.expectedBalance] at hexp
      cases e1 : pyGet P.initial_inventory p <;> rw [e1] at hexp
      · simp at hexp
      cases e2 : pyGet P.yielded_supply (p, t) <;> rw [e2] at hexp
      · simp at hexp
      cases e3 : pyGet P.effective_demand (p, t) <;> rw [e3] at hexp
      · simp at hexp
      simp at hexp
      exact ⟨_, _, rfl, rfl, Or.inl ⟨rfl, _, rfl, by rw [hfilt, ← hexp]⟩⟩
  | succ j =>
      have hlt : j + 1 < P.periods.length := (List.getElem?_eq_some.mp hidx).1
      have hpt : P.periods[j]? = some P.periods[j] :=
        List.getElem?_eq_getElem (Nat.lt_of_succ_lt hlt)
      simp only [Engine.prevAt] at hexp
      rw [hpt] at hexp
      simp only [Engine.expectedBalance] at hexp
      cases e2 : pyGet P.yielded_supply (p, t) <;> rw [e2] at hexp
      · simp at hexp
      cases e3 : pyGet P.effective_demand (p, t) <;> rw [e3] at hexp
      · simp at hexp
      simp at hexp
      exact ⟨_, _, rfl, rfl, Or.inr ⟨j, P.periods[j], rfl, hpt, by rw [hfilt, ← hexp]⟩⟩

theorem C1_balance_unique_witness :
    ∃ sup dem,
      pyGet scenarioP.yielded_supply ("X", "T1") = some sup ∧
      pyGet scenarioP.effective_demand ("X", "T1") = some dem ∧
      ((0 = 0 ∧ ∃ init, pyGet scenarioP.initial_inventory "X" = some init ∧
          scenarioCs.filter (Engine.isBalanceFor "X" "T1") =
            [Engine.balanceFirstC "X" "T1" init sup dem]) ∨
       (∃ j pt, 0 = j + 1 ∧ scenarioP.periods[j]? = some pt ∧
          scenarioCs.filter (Engine.isBalanceFor "X" "T1") =
            [Engine.balanceNextC "X" "T1" pt sup dem])) :=
  C1_balance_unique scenarioP scenarioCs rfl (by decide) (by decide) "X" (by decide)
    0 "T1" (by decide)

namespace Engine

theorem periodStep_eq_none (P : InvParams) (i : String) (prevOpt : Option String)
    (t : String)
    (h : pyGet P.yielded_supply (i, t) = none ∨
         pyGet P.effective_demand (i, t) = none ∨
         pyGet P.safety_stock_target i = none ∨
         (prevOpt = none ∧ pyGet P.initial_inventory i = none)) :
    periodStep P i prevOpt t = none := by
  cases prevOpt with
  | none =>
      cases h1 : pyGet P.initial_inventory i <;>
      cases h2 : pyGet P.yielded_supply (i, t) <;>
      cases h3 : pyGet P.effective_demand (i, t) <;>
      cases h4 : pyGet P.safety_stock_target i <;>
        simp_all [periodStep]
  | some pt =>
      cases h2 : pyGet P.yielded_supply (i, t) <;>
      cases h3 : pyGet P.effective_demand (i, t) <;>
      cases h4 : pyGet P.safety_stock_target i <;>
        simp_all [periodStep]

theorem periodStep_isSome (P : InvParams) (i : String) (prevOpt : Option String)
    (t : String)
    (h1 : (pyGet P.initial_inventory i).isSome)
    (h2 : (pyGet P.safety_stock_target i).isSome)
    (h3 : (pyGet P.effective_demand (i, t)).isSome)
    (h4 : (pyGet P.yielded_supply (i, t)).isSome) :
    (periodStep P i prevOpt t).isSome := by
  obtain ⟨init, e1⟩ := Option.isSome_iff_exists.mp h1
  obtain ⟨sst, e2⟩ := Option.isSome_iff_exists.mp h2
  obtain ⟨dem, e3⟩ := Option.isSome_iff_exists.mp h3
  obtain ⟨sup, e4⟩ := Option.isSome_iff_exists.mp h4
  cases prevOpt <;> simp [periodStep, e1, e2, e3, e4]

theorem periodLoop_isSome (P : InvParams) (i : String)
    (h1 : (pyGet P.initial_inventory i).isSome)
    (h2 : (pyGet P.safety_stock_target i).isSome) :
    ∀ (ts : List String) (prevOpt : Option String),
      (∀ t ∈ ts, (pyGet P.effective_demand (i, t)).isSome ∧
                 (pyGet P.yielded_supply (i, t)).isSome) →
      (periodLoop P i prevOpt ts).isSome := by
  intro ts
  induction ts with
  | nil => intro prevOpt _; simp [periodLoop]
  | cons t' rest ih =>
      intro prevOpt hall
      have hstep := periodStep_isSome P i prevOpt t' h1 h2
        (hall t' (List.mem_cons_self t' rest)).1 (hall t' (List.mem_cons_self t' rest)).2
      obtain ⟨cs₀, e0⟩ := Option.isSome_iff_exists.mp hstep
      have hrest := ih (some t') (fun t ht => hall t (List.mem_cons_of_mem t' ht))
      obtain ⟨more, e1'⟩ := Option.isSome_iff_exists.mp hrest
      simp [periodLoop, e0, e1']

theorem productLoop_isSome (P : InvParams) (h : HasAllKeys P) :
    ∀ ps : List String, (∀ i ∈ ps, i ∈ P.products) →
      (productLoop P ps).isSome := by
  intro ps
  induction ps with
  | nil => intro _; simp [productLoop]
  | cons i rest ih =>
      intro hsub
      obtain ⟨h1, h2, h3⟩ := h i (hsub i (List.mem_cons_self i rest))
      have hloop := periodLoop_isSome P i h1 h2 P.periods none h3
      obtain ⟨cs₀, e0⟩ := Option.isSome_iff_exists.mp hloop
      have hrest := ih (fun i' hi' => hsub i' (List.mem_cons_of_mem i hi'))
      obtain ⟨more, e1'⟩ := Option.isSome_iff_exists.mp hrest
      simp [productLoop, e0, e1']

theorem periodLoop_eq_none_of_mem (P : InvParams) (i t : String)
    (h : pyGet P.yielded_supply (i, t) = none ∨
         pyGet P.effective_demand (i, t) = none ∨
         pyGet P.safety_stock_target i = none) :
    ∀ (ts : List String) (prevOpt : Option String), t ∈ ts →
      periodLoop P i prevOpt ts = none := by
  intro ts
  induction ts with
  | nil => intro prevOpt hm; simp at hm
  | cons t' rest ih =>
      intro prevOpt hm
      rcases List.mem_cons.mp hm with rfl | hm'
      · have hstep : periodStep P i prevOpt t = none :=
          periodStep_eq_none P i prevOpt t (by tauto)
        simp [periodLoop, hstep]
      · cases h0 : periodStep P i prevOpt t' with
        | none => simp [periodLoop, h0]
        | some cs₀ => simp [periodLoop, h0, ih (some t') hm']

theorem periodLoop_eq_none_init (P : InvParams) (i : String)
    (h : pyGet P.initial_inventory i = none)
    (t' : String) (rest : List String) :
    periodLoop P i none (t' :: rest) = none := by
  have hstep : periodStep P i none t' = none :=
    periodStep_eq_none P i none t' (Or.inr (Or.inr (Or.inr ⟨rfl, h⟩)))
  simp [periodLoop, hstep]

theorem productLoop_eq_none (P : InvParams) :
    ∀ (ps : List String) (i : String), i ∈ ps →
      periodLoop P i none P.periods = none → productLoop P ps = none := by
  intro ps
  induction ps with
  | nil => intro i hm; simp at hm
  | cons i0 rest ih =>
      intro i hm hnone
      rcases List.mem_cons.mp hm with rfl | hm'
      · simp [productLoop, hnone]
      · cases h0 : periodLoop P i0 none P.periods with
        | none => simp [productLoop, h0]
        | some cs₀ => simp [productLoop, h0, ih i hm' hnone]

end Engine

/-- C10 (amended): when demand and supply cover `products × periods`
and initial inventory and safety-stock targets cover `products`, every
dictionary lookup of the formulation succeeds (the formulation is
`some`); conversely a violating input makes the formulation fail with a
key-lookup error — provided the period list is nonempty, since with no
periods the constraint loops never execute a lookup. -/
theorem C10_lookup_totality (P : InvParams) :
    (HasAllKeys P → (Engine.lpConstraints P).isSome) ∧
    (¬ HasAllKeys P → P.periods ≠ [] → Engine.lpConstraints P = none) := by
  constructor
  · intro h
    exact Engine.productLoop_isSome P h P.products (fun i hi => hi)
  · intro h hne
    obtain ⟨i, hi, hviol⟩ : ∃ i ∈ P.products,
        ¬ ((pyGet P.initial_inventory i).isSome ∧
           (pyGet P.safety_stock_target i).isSome ∧
           ∀ t ∈ P.periods, (pyGet P.effective_demand (i, t)).isSome ∧
             (pyGet P.yielded_supply (i, t)).isSome) := by
      by_contra hc
      push_neg at hc
      exact h (fun i hi => hc i hi)
    obtain ⟨t0, rest, hts⟩ := List.exists_cons_of_ne_nil hne
    show Engine.productLoop P P.products = none
    by_cases h1 : (pyGet P.initial_inventory i).isSome
    · by_cases h2 : (pyGet P.safety_stock_target i).isSome
      · have hdm : ∃ t ∈ P.periods,
            ¬ ((pyGet P.effective_demand (i, t)).isSome ∧
               (pyGet P.yielded_supply (i, t)).isSome) := by
          by_contra hc
          push_neg at hc
          exact hviol ⟨h1, h2, fun t ht => hc t ht⟩
        obtain ⟨t, ht, hde⟩ := hdm
        have hnone : pyGet P.yielded_supply (i, t) = none ∨
            pyGet P.effective_demand (i, t) = none ∨
            pyGet P.safety_stock_target i = none := by
          rcases Classical.em ((pyGet P.effective_demand (i, t)).isSome) with hd | hd
          · have hs : ¬ (pyGet P.yielded_supply (i, t)).isSome :=
              fun hs => hde ⟨hd, hs⟩
            exact Or.inl (Option.not_isSome_iff_eq_none.mp hs)
          · exact Or.inr (Or.inl (Option.not_isSome_iff_eq_none.mp hd))
        exact Engine.productLoop_eq_none P P.products i hi
          (Engine.periodLoop_eq_none_of_mem P i t hnone P.periods none ht)
      · have hs := Option.not_isSome_iff_eq_none.mp h2
        have ht0 : t0 ∈ P.periods := by
          rw [hts]
          exact List.mem_cons_self t0 rest
        exact Engine.productLoop_eq_none P P.products i hi
          (Engine.periodLoop_eq_none_of_mem P i t0 (Or.inr (Or.inr hs))
            P.periods none ht0)
    · have hin := Option.not_isSome_iff_eq_none.mp h1
      have hli : Engine.periodLoop P i none P.periods = none := by
        rw [hts]
        exact Engine.periodLoop_eq_none_init P i hin t0 rest
      exact Engine.productLoop_eq_none P P.products i hi hli

theorem C10_lookup_totality_witness : (Engine.lpConstraints scenarioP).isSome :=
  (C10_lookup_totality scenarioP).1 (by decide)

/-- C10 counterexample: a violating input (a product with no
`initial_inventory` / `safety_stock_target` entry) with an empty period
list does NOT fail — `lp_model` formulates an empty constraint list and
returns a result — refuting the claim that every violating input fails
with a key-lookup error. -/
theorem C10_counterexample :
    ¬ HasAllKeys noKeysP ∧ Engine.lpConstraints noKeysP = some [] :=
  ⟨by decide, rfl⟩
